import Mathlib

/-!
Verification development for the Ovid text-metamorphosis library.

Ovid rewrites delimited shorthand markup embedded in free text: registered
processors (regex pattern plus handler function) are applied to the
innermost delimited span, the handler output is spliced back, and the
process repeats until no markup remains.  A companion production path
regenerates markup from concrete argument values.

The embedding below models the relevant Python code as executable Lean
functions over strings represented as List Char:

* OneWayProcessor._process / _unique_groups (src/src/ovid/basic.py)
* CollectiveProcessor.collective_sub        (src/src/ovid/basic.py)
* DelimitedShorthand._targetfinder, _escape, _unescape, collective_sub,
  and its inner resolver (collective_sub_raw below embeds the method
  _collective_sub_unsafe)                 (src/src/ovid/basic.py)
* SignatureShorthand.__init__               (src/src/ovid/inspecting.py)
* TwoWayProcessor / TwoWaySignatureShorthand.produce (src/ovid/producing.py)

Python recursion in the collective resolvers is not structurally bounded
(the source documents that a handler can make resolution loop forever), so
those loops take an explicit fuel parameter; running out of fuel is a
distinguished result and all theorems are stated for sufficient fuel,
together with monotonicity lemmas showing the result is stable once fuel
suffices.
-/

namespace Ovid

/-- Concrete character list of a string literal. -/
def chars (s : String) : List Char := s.toList

/-- One registered processor, reduced to the observable behaviour the
collective resolvers use: its subn method, mapping a subject string to the
rewritten string together with the number of replacements made
(re.subn semantics).  A Processor in the source owns a compiled regex and
a handler; the collective algorithms interact with it only through subn. -/
structure Proc where
  subn : List Char → List Char × Nat

/-- Python re.subn for a compiled pattern that matches exactly the literal
text pat, replacing every occurrence by repl: scan left to right, replace
each non-overlapping occurrence, and count replacements.  This is the subn
behaviour of registry entries whose regex is a brace-wrapped literal, such
as the processor built by DelimitedShorthand with subpattern (b), whose
compiled regex matches exactly the five literal characters of a braced b,
with a constant handler.  The Nat argument counts input characters still
to be consumed by an already-emitted replacement, so that matches never
overlap and scanning resumes exactly at the end of the previous match;
it is the structural-recursion rendering of continuing the scan at
match.end(). -/
def subnLitAux (pat repl : List Char) : Nat → List Char → List Char × Nat
  | _ + 1, [] => ([], 0)
  | skip + 1, _ :: rest => subnLitAux pat repl skip rest
  | 0, [] => ([], 0)
  | 0, c :: rest =>
    if pat ≠ [] ∧ pat <+: (c :: rest) then
      let p := subnLitAux pat repl (pat.length - 1) rest
      (repl ++ p.1, p.2 + 1)
    else
      let p := subnLitAux pat repl 0 rest
      (c :: p.1, p.2)

/-- Entry point of the literal subn scan, starting with nothing to skip. -/
def subnLit (pat repl s : List Char) : List Char × Nat :=
  subnLitAux pat repl 0 s

/-- Processor whose regex matches the literal text pat and whose handler
ignores its arguments and returns out, e.g. the test registry entries
built as DelimitedShorthand applied to subpattern (b) and a constant
lambda. -/
def constProc (pat out : List Char) : Proc :=
  ⟨fun s => subnLit pat out s⟩

/-- Python re.search for a pattern matching the literal text pat: true iff
pat occurs as a contiguous substring of the subject. -/
def searchLit (pat : List Char) : List Char → Bool
  | [] => decide (pat <+: ([] : List Char))
  | c :: rest => decide (pat <+: (c :: rest)) || searchLit pat rest

namespace CollectiveProcessor

/-- One pass of the for-loop in CollectiveProcessor.collective_sub
(src/src/ovid/basic.py): try each registered processor in registration
order on the subject; report the rewritten string of the first processor
whose subn both matched at least once (count nonzero) and actually changed
the string; report none when the whole pass makes no change. -/
def collective_pass : List Proc → List Char → Option (List Char)
  | [], _ => none
  | p :: ps, s =>
    let r := p.subn s
    if r.2 ≠ 0 ∧ r.1 ≠ s then some r.1 else collective_pass ps s

/-- CollectiveProcessor.collective_sub (src/src/ovid/basic.py): repeatedly
run a pass over the registry, restarting from the top against the new
string after every change, until a full pass produces no change.  The
Python recursion has no structural bound, so this embedding takes fuel;
none is returned only when fuel runs out. -/
def collective_sub (reg : List Proc) : Nat → List Char → Option (List Char)
  | 0, _ => none
  | fuel + 1, s =>
    match collective_pass reg s with
    | some t => collective_sub reg fuel t
    | none => some s

end CollectiveProcessor

/-- Lead-in delimiter of DelimitedShorthand, the default two-brace string. -/
def lead_in : List Char := ['{', '{']

/-- Lead-out delimiter of DelimitedShorthand, the default two-brace string. -/
def lead_out : List Char := ['}', '}']

/-- Literal text matched by the regex DelimitedShorthand._escape(lead_in):
the escape token is prepended to each delimiter character, so the pattern
matches backslash, open brace, backslash, open brace. -/
def escaped_in : List Char := ['\\', '{', '\\', '{']

/-- Literal text matched by DelimitedShorthand._escape(lead_out):
backslash, close brace, backslash, close brace. -/
def escaped_out : List Char := ['\\', '}', '\\', '}']

namespace DelimitedShorthand

/-- Matching of the content-and-close part of the targetfinder regex of
DelimitedShorthand (src/src/ovid/basic.py) for the default configuration,
beginning just after an active lead-in.  The regex there is a lazy
repetition closed by the active lead-out: at each step it first tries to
match the lead-out (lazy, so the shortest content wins); otherwise one
content item is consumed, trying in order an escaped lead-in, an escaped
lead-out, or any single character other than a newline that does not begin
an active lead-in; alternatives fall through on failure exactly as the
backtracking regex engine does.  Both delimiters have two characters, so
their active forms are plain literals (the look-behind branch of _unescape
applies only to single-character delimiters).  Returns the captured
content and the remainder after the lead-out.  The Nat argument counts
characters of an already-accepted escaped delimiter still to be consumed
(the four-character unit is appended to the content as a whole when its
first character is reached), keeping the recursion structural. -/
def targetfinder_content_aux : Nat → List Char → Option (List Char × List Char)
  | _ + 1, [] => none
  | skip + 1, _ :: rest => targetfinder_content_aux skip rest
  | 0, [] => none
  | 0, c :: rest =>
    if lead_out <+: (c :: rest) then some ([], (c :: rest).drop 2)
    else
      (if escaped_in <+: (c :: rest) then
         (targetfinder_content_aux 3 rest).map (fun p => (escaped_in ++ p.1, p.2))
       else none) <|>
      (if escaped_out <+: (c :: rest) then
         (targetfinder_content_aux 3 rest).map (fun p => (escaped_out ++ p.1, p.2))
       else none) <|>
      (if lead_in <+: (c :: rest) ∨ c = '\n' then none
       else (targetfinder_content_aux 0 rest).map (fun p => (c :: p.1, p.2)))

/-- Entry point of the content-and-close matcher, with nothing to skip. -/
def targetfinder_content (s : List Char) : Option (List Char × List Char) :=
  targetfinder_content_aux 0 s

/-- Python re.search with the targetfinder regex: try each start position
from the left; at a position where the active lead-in matches and the
content-and-close part succeeds, the match is found; otherwise advance the
start position by one character.  Returns the text before the match, the
captured group (content between the delimiters), and the text after. -/
def targetfinder_search : List Char → Option (List Char × List Char × List Char)
  | [] => none
  | c :: rest =>
    (if lead_in <+: (c :: rest) then
       (targetfinder_content ((c :: rest).drop 2)).map
         (fun p => (([] : List Char), p.1, p.2))
     else none) <|>
    (targetfinder_search rest).map (fun q => (c :: q.1, q.2))

/-- Outcome of delimited collective substitution.  The two error
constructors embed the exceptions OpenShorthandError and
UnknownShorthandError of DelimitedShorthand; out_of_fuel is the artefact
of bounding the unbounded Python recursion. -/
inductive RunResult where
  | ok (s : List Char)
  | unknown_shorthand (repl : List Char)
  | open_shorthand (delim : List Char)
  | out_of_fuel
deriving DecidableEq

/-- Embedding of the inner resolver method of DelimitedShorthand (the
method _collective_sub_unsafe of src/src/ovid/basic.py):
search for the innermost delimited span; if none, return the string.
Otherwise run the plain collective substitution of CollectiveProcessor on
the span alone; if that leaves the span unchanged, fail with
UnknownShorthandError; otherwise splice the replacement into the full
string in place of the span and recurse on the result. -/
def collective_sub_raw (reg : List Proc) : Nat → List Char → RunResult
  | 0, _ => .out_of_fuel
  | fuel + 1, s =>
    match targetfinder_search s with
    | none => .ok s
    | some (pre, content, post) =>
      let span := lead_in ++ content ++ lead_out
      match CollectiveProcessor.collective_sub reg (fuel + 1) span with
      | none => .out_of_fuel
      | some repl =>
        if repl = span then .unknown_shorthand repl
        else collective_sub_raw reg fuel (pre ++ repl ++ post)

/-- DelimitedShorthand.collective_sub (src/src/ovid/basic.py): run the
unsafe resolver, then, when safe is set, search the cooked string for a
remaining active lead-in and then a remaining active lead-out (both are
two-character delimiters, so their active patterns are the plain
literals); the first one found raises OpenShorthandError. -/
def collective_sub (reg : List Proc) (fuel : Nat) (raw : List Char)
    (safe : Bool) : RunResult :=
  match collective_sub_raw reg fuel raw with
  | .ok cooked =>
    if safe then
      if searchLit lead_in cooked then .open_shorthand lead_in
      else if searchLit lead_out cooked then .open_shorthand lead_out
      else .ok cooked
    else .ok cooked
  | r => r

end DelimitedShorthand

namespace CollectiveProcessor

/-- Spec-side reading of C3: a Processor applies to a subject when its
subn matches at least once and changes the string. -/
def SpecApplies (p : Proc) (s : List Char) : Prop :=
  (p.subn s).2 ≠ 0 ∧ (p.subn s).1 ≠ s

/-- Spec-side reading of C3: one resolution step rewrites s to the output
of the first registered Processor, in registration order, that applies;
all earlier Processors must not apply. -/
def SpecFirstApplied (reg : List Proc) (s t : List Char) : Prop :=
  ∃ pre p post, reg = pre ++ p :: post ∧ SpecApplies p s ∧
    t = (p.subn s).1 ∧ ∀ q ∈ pre, ¬ SpecApplies q s

/-- Spec-side reading of C3: full non-delimited collective resolution,
stepping with the first applicable Processor and restarting the scan from
the top against the new string, until a full pass over the registry
produces no change. -/
inductive SpecResolves (reg : List Proc) : List Char → List Char → Prop
  | done (s : List Char) : (∀ p ∈ reg, ¬ SpecApplies p s) →
      SpecResolves reg s s
  | step (s t r : List Char) : SpecFirstApplied reg s t →
      SpecResolves reg t r → SpecResolves reg s r

theorem collective_pass_some_iff (reg : List Proc) (s t : List Char) :
    collective_pass reg s = some t ↔ SpecFirstApplied reg s t := by
  induction reg with
  | nil =>
    simp only [collective_pass, SpecFirstApplied]
    constructor
    · intro h; cases h
    · rintro ⟨pre, p, post, habs, -⟩
      exact absurd habs (by simp)
  | cons q qs ih =>
    simp only [collective_pass]
    by_cases hq : (q.subn s).2 ≠ 0 ∧ (q.subn s).1 ≠ s
    · simp only [if_pos hq]
      constructor
      · rintro ⟨rfl⟩
        exact ⟨[], q, qs, rfl, hq, rfl, by simp⟩
      · rintro ⟨pre, p, post, heq, happ, ht, hpre⟩
        cases pre with
        | nil =>
          simp only [List.nil_append, List.cons.injEq] at heq
          simp [ht, heq.1]
        | cons a as =>
          simp only [List.cons_append, List.cons.injEq] at heq
          exact absurd (heq.1 ▸ hq) (hpre a (by simp))
    · simp only [if_neg hq, ih]
      constructor
      · rintro ⟨pre, p, post, rfl, happ, ht, hpre⟩
        exact ⟨q :: pre, p, post, rfl, happ, ht, by
          rintro x hx
          rcases List.mem_cons.mp hx with rfl | hx
          · exact fun hc => hq hc
          · exact hpre x hx⟩
      · rintro ⟨pre, p, post, heq, happ, ht, hpre⟩
        cases pre with
        | nil =>
          simp only [List.nil_append, List.cons.injEq] at heq
          exact absurd (heq.1 ▸ happ) hq
        | cons a as =>
          simp only [List.cons_append, List.cons.injEq] at heq
          exact ⟨as, p, post, heq.2, happ, ht, fun x hx => hpre x (by simp [hx])⟩

theorem collective_pass_none_iff (reg : List Proc) (s : List Char) :
    collective_pass reg s = none ↔ ∀ p ∈ reg, ¬ SpecApplies p s := by
  induction reg with
  | nil => simp [collective_pass]
  | cons q qs ih =>
    simp only [collective_pass]
    by_cases hq : (q.subn s).2 ≠ 0 ∧ (q.subn s).1 ≠ s
    · simp only [if_pos hq]
      constructor
      · intro h; cases h
      · intro h; exact absurd hq (h q (by simp))
    · simp only [if_neg hq, ih]
      constructor
      · intro h p hp
        rcases List.mem_cons.mp hp with rfl | hp
        · exact fun hc => hq hc
        · exact h p hp
      · intro h p hp; exact h p (by simp [hp])

theorem plain_collective_sub_mono (reg : List Proc) :
    ∀ fuel fuel' s r, collective_sub reg fuel s = some r → fuel ≤ fuel' →
      collective_sub reg fuel' s = some r := by
  intro fuel
  induction fuel with
  | zero => intro fuel' s r h _; cases h
  | succ n ih =>
    intro fuel' s r h hle
    cases fuel' with
    | zero => omega
    | succ m =>
      simp only [collective_sub] at h ⊢
      cases hp : collective_pass reg s with
      | none => rw [hp] at h; exact h
      | some t => rw [hp] at h; exact ih m t r h (by omega)

end CollectiveProcessor

namespace DelimitedShorthand

theorem collective_sub_raw_mono (reg : List Proc) :
    ∀ fuel fuel' s r, collective_sub_raw reg fuel s = r →
      r ≠ .out_of_fuel → fuel ≤ fuel' →
      collective_sub_raw reg fuel' s = r := by
  intro fuel
  induction fuel with
  | zero =>
    intro fuel' s r h hr _
    exact absurd h.symm hr
  | succ n ih =>
    intro fuel' s r h hr hle
    cases fuel' with
    | zero => omega
    | succ m =>
      simp only [collective_sub_raw] at h ⊢
      cases ht : targetfinder_search s with
      | none => rw [ht] at h; exact h
      | some pcp =>
        rw [ht] at h
        obtain ⟨pre, content, post⟩ := pcp
        simp only at h ⊢
        cases hc : CollectiveProcessor.collective_sub reg (n + 1)
            (lead_in ++ content ++ lead_out) with
        | none => rw [hc] at h; exact absurd h.symm hr
        | some repl =>
          rw [hc] at h
          rw [CollectiveProcessor.plain_collective_sub_mono reg (n + 1) (m + 1)
            (lead_in ++ content ++ lead_out) repl hc (by omega)]
          by_cases he : repl = lead_in ++ content ++ lead_out
          · simp only [if_pos he] at h ⊢; exact h
          · simp only [if_neg he] at h ⊢
            exact ih m (pre ++ repl ++ post) r h hr (by omega)

theorem delimited_collective_sub_mono (reg : List Proc) (fuel fuel' : Nat)
    (raw : List Char) (safe : Bool) (r : RunResult)
    (h : collective_sub reg fuel raw safe = r) (hr : r ≠ .out_of_fuel)
    (hle : fuel ≤ fuel') : collective_sub reg fuel' raw safe = r := by
  simp only [collective_sub] at h ⊢
  cases hu : collective_sub_raw reg fuel raw with
  | ok cooked =>
    rw [hu] at h
    rw [collective_sub_raw_mono reg fuel fuel' raw (.ok cooked) hu
      (by simp) hle]
    exact h
  | unknown_shorthand repl =>
    rw [hu] at h
    rw [collective_sub_raw_mono reg fuel fuel' raw
      (.unknown_shorthand repl) hu (by simp) hle]
    exact h
  | open_shorthand d =>
    rw [hu] at h
    rw [collective_sub_raw_mono reg fuel fuel' raw (.open_shorthand d) hu
      (by simp) hle]
    exact h
  | out_of_fuel => rw [hu] at h; exact absurd h.symm hr

end DelimitedShorthand

/-- Registry used by the claims about the default-configuration tests: the
three auto-registered DelimitedShorthand processors for subpatterns (b),
(c) and (d), whose handlers return the letter y, a braced b, and a doubled
braced c respectively, registered in that order. -/
def regBCD : List Proc :=
  [constProc (chars "\x7b\x7bb\x7d\x7d") (chars "y"),
   constProc (chars "\x7b\x7bc\x7d\x7d") (chars "\x7b\x7bb\x7d\x7d"),
   constProc (chars "\x7b\x7bd\x7d\x7d")
     (chars "\x7b\x7bc\x7d\x7d\x7b\x7bc\x7d\x7d")]

/-- C3: in non-delimited collective resolution, for every subject string,
registered Processors are tried in registration order; the first one that
both matches at least once and changes the string is applied and the scan
restarts from the top of the registry against the new string; the function
returns the string once a full pass over the registry produces no change.
Stated as an exact correspondence between the embedded
CollectiveProcessor.collective_sub (for some sufficient fuel) and the
resolution relation SpecResolves written from the claim's words. -/
theorem c3_collective_sub_characterisation (reg : List Proc)
    (s r : List Char) :
    (∃ fuel, CollectiveProcessor.collective_sub reg fuel s = some r) ↔
      CollectiveProcessor.SpecResolves reg s r := by
  constructor
  · rintro ⟨fuel, h⟩
    induction fuel generalizing s with
    | zero => cases h
    | succ n ih =>
      simp only [CollectiveProcessor.collective_sub] at h
      cases hp : CollectiveProcessor.collective_pass reg s with
      | none =>
        rw [hp] at h
        obtain rfl := Option.some.inj h
        exact CollectiveProcessor.SpecResolves.done _
          ((CollectiveProcessor.collective_pass_none_iff reg _).mp hp)
      | some t =>
        rw [hp] at h
        exact CollectiveProcessor.SpecResolves.step s t r
          ((CollectiveProcessor.collective_pass_some_iff reg s t).mp hp)
          (ih t h)
  · intro h
    induction h with
    | done s hnone =>
      exact ⟨1, by
        simp only [CollectiveProcessor.collective_sub]
        rw [(CollectiveProcessor.collective_pass_none_iff reg s).mpr hnone]⟩
    | step s t r hstep _ ih =>
      obtain ⟨fuel, hf⟩ := ih
      exact ⟨fuel + 1, by
        simp only [CollectiveProcessor.collective_sub]
        rw [(CollectiveProcessor.collective_pass_some_iff reg s t).mpr hstep]
        exact hf⟩

/-- C1: with registered delimited processors b, c, d as in regBCD over the
default double-brace delimiters, collective resolution of the string
a-braced-d-a returns ayya: the span for d expands to two spans for c, each
of which expands to a span for b and then to y, all resolved before the
final text is assembled (innermost first). -/
theorem c1_nested_collective_sub (fuel : Nat) (h : 9 ≤ fuel) :
    DelimitedShorthand.collective_sub regBCD fuel
      (chars "a\x7b\x7bd\x7d\x7da") true = .ok (chars "ayya") := by
  refine DelimitedShorthand.delimited_collective_sub_mono regBCD 9 fuel _ true _
    (by decide) (by decide) h

/-- Witness for c1_nested_collective_sub at the concrete fuel 9. -/
theorem c1_witness :
    DelimitedShorthand.collective_sub regBCD 9
      (chars "a\x7b\x7bd\x7d\x7da") true = .ok (chars "ayya") :=
  c1_nested_collective_sub 9 (by decide)

/-- C4: with default delimiters and safe resolution, a stray lead-out
(subject b-closebraces) and a stray lead-in (subject openbraces-b) both
fail with OpenShorthandError, while an empty delimited span and a span
naming the unregistered shorthand a both fail with UnknownShorthandError. -/
theorem c4_error_detection (fuel : Nat) (h : 9 ≤ fuel) :
    DelimitedShorthand.collective_sub regBCD fuel (chars "b\x7d\x7d") true =
        .open_shorthand lead_out ∧
      DelimitedShorthand.collective_sub regBCD fuel (chars "\x7b\x7bb") true =
        .open_shorthand lead_in ∧
      DelimitedShorthand.collective_sub regBCD fuel
          (chars "\x7b\x7b\x7d\x7d") true =
        .unknown_shorthand (chars "\x7b\x7b\x7d\x7d") ∧
      DelimitedShorthand.collective_sub regBCD fuel
          (chars "\x7b\x7ba\x7d\x7d") true =
        .unknown_shorthand (chars "\x7b\x7ba\x7d\x7d") := by
  refine ⟨DelimitedShorthand.delimited_collective_sub_mono regBCD 9 fuel _ true _
      (by decide) (by decide) h,
    DelimitedShorthand.delimited_collective_sub_mono regBCD 9 fuel _ true _
      (by decide) (by decide) h,
    DelimitedShorthand.delimited_collective_sub_mono regBCD 9 fuel _ true _
      (by decide) (by decide) h,
    DelimitedShorthand.delimited_collective_sub_mono regBCD 9 fuel _ true _
      (by decide) (by decide) h⟩

/-- Witness for c4_error_detection at the concrete fuel 9. -/
theorem c4_witness :
    DelimitedShorthand.collective_sub regBCD 9 (chars "b\x7d\x7d") true =
        .open_shorthand lead_out ∧
      DelimitedShorthand.collective_sub regBCD 9 (chars "\x7b\x7bb") true =
        .open_shorthand lead_in ∧
      DelimitedShorthand.collective_sub regBCD 9
          (chars "\x7b\x7b\x7d\x7d") true =
        .unknown_shorthand (chars "\x7b\x7b\x7d\x7d") ∧
      DelimitedShorthand.collective_sub regBCD 9
          (chars "\x7b\x7ba\x7d\x7d") true =
        .unknown_shorthand (chars "\x7b\x7ba\x7d\x7d") :=
  c4_error_detection 9 (by decide)

/-- C5: with escape token backslash and default delimiters, a subject in
which every delimiter character is individually escaped resolves to itself
unchanged and without error, even though a processor for the shorthand c
is registered: escaped delimiter occurrences are never treated as active
span boundaries and are passed through verbatim. -/
theorem c5_escape_passthrough (fuel : Nat) (h : 1 ≤ fuel) :
    DelimitedShorthand.collective_sub regBCD fuel
      (chars "a\\\x7b\\\x7bc\\\x7d\\\x7da") true =
      .ok (chars "a\\\x7b\\\x7bc\\\x7d\\\x7da") := by
  refine DelimitedShorthand.delimited_collective_sub_mono regBCD 1 fuel _ true _
    (by decide) (by decide) h

/-- Witness for c5_escape_passthrough at the concrete fuel 1. -/
theorem c5_witness :
    DelimitedShorthand.collective_sub regBCD 1
      (chars "a\\\x7b\\\x7bc\\\x7d\\\x7da") true =
      .ok (chars "a\\\x7b\\\x7bc\\\x7d\\\x7da") :=
  c5_escape_passthrough 1 (by decide)

namespace SignatureShorthand

/-- Python word character, the regex class of backslash-w restricted to
its ASCII behaviour: letters, digits and the underscore. -/
def isWordChar (c : Char) : Bool := c.isAlphanum || c = '_'

/-- First character of a Python identifier, the character class used in
the private python identifier pattern of the inspecting module: a word
character that is not a digit. -/
def isIdentStart (c : Char) : Bool := isWordChar c && !c.isDigit

/-- Matching of the negative look-ahead placed before every unnamed
capture in SignatureShorthand.__init__: does the subject begin with a
Python identifier immediately followed by the assignment operator?  The
look-behind for a doubled escape placed before the operator in the source
is vacuous here because the character before the operator is always a word
character; and because the operator is not a word character, the
backtracking repetition of word characters in the identifier is equivalent
to taking the maximal word-character run. -/
def startsIdentAssign : List Char → Bool
  | [] => false
  | c :: rest => isIdentStart c && ((rest.dropWhile isWordChar).head? == some '=')

/-- Characters admissible in a captured argument value: the value
sub-pattern admits any character other than the separator (a negative
look-ahead for the separator before a dot), and the dot also excludes the
newline because the patterns are compiled without DOTALL. -/
def isValueChar (c : Char) : Bool := c != '|' && c != '\n'

/-- Length of the maximal run of admissible value characters, the first
candidate the greedy value repetition consumes. -/
def maxRun (s : List Char) : Nat := (s.takeWhile isValueChar).length

/-- Descending candidate lengths the greedy value repetition tries,
backtracking from the maximal run down to the empty match. -/
def greedyLens (s : List Char) : List Nat := (List.range (maxRun s + 1)).reverse

/-- Syntactic pieces of the consumption regex assembled by
SignatureShorthand.__init__ (src/src/ovid/inspecting.py) and wrapped in
the delimiters by DelimitedShorthand._generate_re: literal text, one
unnamed (required-argument) capture group guarded by the identifier
look-ahead, or one optional named group consisting of separator, literal
name, assignment operator and a named value capture. -/
inductive SigPiece where
  | lit (l : List Char)
  | unnamedGroup
  | optGroup (name : List Char)

/-- Captured groups of one match of a signature regex: the unnamed groups
in order, and the named groups that participated in the match (named
groups that did not participate are absent, mirroring the None filter in
OneWayProcessor._unique_groups). -/
structure Caps where
  unnamed : List (List Char)
  named : List (List Char × List Char)
deriving DecidableEq

/-- Consumption pattern of SignatureShorthand for a handler called fname
with n required positional parameters and optional parameter names opts
(in declaration order): the literal lead-in and function name, then one
separator-prefixed unnamed group per required parameter, then one optional
named group per optional parameter, then the literal lead-out. -/
def unnamedSection : Nat → List SigPiece
  | 0 => []
  | k + 1 => .lit ['|'] :: .unnamedGroup :: unnamedSection k

/-- Full piece list of the derived regex, delimiters included. -/
def sigPieces (fname : List Char) (n : Nat) (opts : List (List Char)) :
    List SigPiece :=
  .lit (lead_in ++ fname) ::
    (unnamedSection n ++ (opts.map SigPiece.optGroup ++ [.lit lead_out]))

/-- Backtracking matcher for a signature regex at the head of the
subject, faithful to the Python engine's strategy: pieces are matched in
sequence; the greedy value repetition tries candidate lengths longest
first; an optional named group first tries to match its separator, name,
operator and value and falls back to matching nothing; the look-ahead
guard of an unnamed group is evaluated once at its position; the first
complete success wins.  Returns the captures and the remaining subject
after the match. -/
def runPieces : List SigPiece → List Char → Option (Caps × List Char)
  | [], s => some (⟨[], []⟩, s)
  | .lit l :: ps, s =>
    if l <+: s then runPieces ps (s.drop l.length) else none
  | .unnamedGroup :: ps, s =>
    if startsIdentAssign s then none
    else
      (greedyLens s).findSome? (fun k =>
        (runPieces ps (s.drop k)).map
          (fun r => (⟨s.take k :: r.1.unnamed, r.1.named⟩, r.2)))
  | .optGroup name :: ps, s =>
    (if ('|' :: (name ++ ['='])) <+: s then
       (greedyLens (s.drop (name.length + 2))).findSome? (fun k =>
         (runPieces ps ((s.drop (name.length + 2)).drop k)).map
           (fun r => (⟨r.1.unnamed,
             (name, (s.drop (name.length + 2)).take k) :: r.1.named⟩, r.2)))
     else none) <|>
    runPieces ps s

/-- Python re.subn scanning with a signature regex: try a match at every
position from the left; where one succeeds, emit the replacement computed
by repl from the captures (OneWayProcessor._process applies the handler to
the unnamed and participating named groups) and resume immediately after
the match; elsewhere copy one character and advance.  The Nat argument
counts input characters of the previous match still to be consumed, which
keeps the recursion structural; a zero-width match is impossible here
because every signature pattern begins with the literal lead-in, so the
fallback that stops the scan in that case is unreachable. -/
def sigSubnAux (repl : Caps → List Char) (pieces : List SigPiece) :
    Nat → List Char → List Char × Nat
  | _ + 1, [] => ([], 0)
  | skip + 1, _ :: rest => sigSubnAux repl pieces skip rest
  | 0, [] =>
    match runPieces pieces [] with
    | some (caps, _) => (repl caps, 1)
    | none => ([], 0)
  | 0, c :: rest =>
    match runPieces pieces (c :: rest) with
    | some (caps, r) =>
      if r.length ≤ rest.length then
        let p := sigSubnAux repl pieces (rest.length - r.length) rest
        (repl caps ++ p.1, p.2 + 1)
      else (c :: rest, 0)
    | none =>
      let p := sigSubnAux repl pieces 0 rest
      (c :: p.1, p.2)

/-- Entry point of the signature subn scan, with nothing to skip. -/
def sigSubn (repl : Caps → List Char) (pieces : List SigPiece)
    (s : List Char) : List Char × Nat :=
  sigSubnAux repl pieces 0 s

/-- Python re.sub with a signature regex: the rewritten string of subn. -/
def sigSub (repl : Caps → List Char) (pieces : List SigPiece)
    (s : List Char) : List Char :=
  (sigSubn repl pieces s).1

/-- Handler of the signature-derivation test, f with one required
parameter and keyword parameters kw0 defaulting to the integer one and kw1
defaulting to None: it returns the space-joined string forms of arg, kw0
and kw1, so an omitted keyword argument contributes the string form of its
Python default. -/
def handlerF (caps : Caps) : List Char :=
  (caps.unnamed.headD []) ++
    ' ' :: ((caps.named.lookup (chars "kw0")).getD (chars "1")) ++
    ' ' :: ((caps.named.lookup (chars "kw1")).getD (chars "None"))

/-- The auto-registered SignatureShorthand processor derived from f. -/
def procF : Proc :=
  ⟨fun s => sigSubn handlerF
    (sigPieces (chars "f") 1 [chars "kw0", chars "kw1"]) s⟩

/-- Registry containing only the processor derived from f. -/
def regF : List Proc := [procF]

end SignatureShorthand

/-- C7: for the signature-derived processor over f(arg, kw0=1, kw1=None)
with separator bar and assignment operator equals, collective resolution
of the markup naming f with argument 1 and kw0=1 yields the text 1 1 None,
with kw0=1 and kw1=1 yields 1 1 1, and with the unrecognized extra keyword
kw2=1 fails with UnknownShorthandError. -/
theorem c7_signature_mix (fuel : Nat) (h : 9 ≤ fuel) :
    DelimitedShorthand.collective_sub SignatureShorthand.regF fuel
        (chars "\x7b\x7bf|1|kw0=1\x7d\x7d") true = .ok (chars "1 1 None") ∧
      DelimitedShorthand.collective_sub SignatureShorthand.regF fuel
        (chars "\x7b\x7bf|1|kw0=1|kw1=1\x7d\x7d") true =
        .ok (chars "1 1 1") ∧
      DelimitedShorthand.collective_sub SignatureShorthand.regF fuel
        (chars "\x7b\x7bf|1|kw0=1|kw1=1|kw2=1\x7d\x7d") true =
        .unknown_shorthand (chars "\x7b\x7bf|1|kw0=1|kw1=1|kw2=1\x7d\x7d") := by
  refine ⟨DelimitedShorthand.delimited_collective_sub_mono _ 9 fuel _ true _
      (by decide) (by decide) h,
    DelimitedShorthand.delimited_collective_sub_mono _ 9 fuel _ true _
      (by decide) (by decide) h,
    DelimitedShorthand.delimited_collective_sub_mono _ 9 fuel _ true _
      (by decide) (by decide) h⟩

/-- Witness for c7_signature_mix at the concrete fuel 9. -/
theorem c7_witness :
    DelimitedShorthand.collective_sub SignatureShorthand.regF 9
        (chars "\x7b\x7bf|1|kw0=1\x7d\x7d") true = .ok (chars "1 1 None") ∧
      DelimitedShorthand.collective_sub SignatureShorthand.regF 9
        (chars "\x7b\x7bf|1|kw0=1|kw1=1\x7d\x7d") true =
        .ok (chars "1 1 1") ∧
      DelimitedShorthand.collective_sub SignatureShorthand.regF 9
        (chars "\x7b\x7bf|1|kw0=1|kw1=1|kw2=1\x7d\x7d") true =
        .unknown_shorthand (chars "\x7b\x7bf|1|kw0=1|kw1=1|kw2=1\x7d\x7d") :=
  c7_signature_mix 9 (by decide)

namespace SignatureShorthand

/-- Result of inspect.getfullargspec as consumed by
SignatureShorthand.__init__: the named positional-or-keyword parameters in
order, the number of trailing parameters with defaults, and the names of
the variadic star-args and double-star-kwargs parameters when present. -/
structure FullArgSpec where
  args : List String
  nDefaults : Nat
  varargs : Option String
  varkw : Option String

/-- Regex source text of the private python identifier class attribute. -/
def python_identifier : String := "[^\\d\\W]\\w*"

/-- Regex source of the active assignment operator, produced by applying
_unescape to the re-escaped operator: an equals sign with a negative
look-behind.  The look-behind text is the doubly re-escaped escape
attribute, so it matches two literal backslashes. -/
def active_op : String := "(?<!\\\\\\\\)="

/-- Regex source of the active separator: the re-escaped bar is two
characters long, so _unescape returns it unchanged with no look-behind. -/
def active_sep : String := "\\|"

/-- Regex source of the content of one unnamed (required-argument) group,
as formatted in SignatureShorthand.__init__: a negative look-ahead
rejecting an identifier followed by the active operator, then a capture of
any run of characters not containing the active separator.  The
double-brace formatting escape applied in the source is the identity here
because the text contains no braces. -/
def unnamed_src : String :=
  "(?!" ++ python_identifier ++ active_op ++ ")((?:(?!" ++ active_sep ++
    ").)*)"

/-- Regex source of the content of one named group. -/
def named_src : String := "(?:(?!" ++ active_sep ++ ").)*"

/-- SignatureShorthand.__init__ (src/src/ovid/inspecting.py) followed by
the delimiter wrapping of DelimitedShorthand._generate_re: derive, from a
handler's argspec, the source text of the consumption regex.  The counts
follow the source: the last nDefaults entries of args are the optional
parameters, the rest are required.  Derivation reads only args and the
defaults; the varargs and varkw fields of the argspec are never consulted,
and the source raises no error of any kind, so the result is always ok.
The Except codomain exists so that the claimed failure outcome is
expressible. -/
def derive_pattern (fname : String) (spec : FullArgSpec) :
    Except String String :=
  let nNamed := spec.nDefaults
  let nUnnamed := spec.args.length - nNamed
  let req := (spec.args.take nUnnamed).foldl
    (fun acc _ => acc ++ active_sep ++ unnamed_src) ""
  let opt := (spec.args.drop nUnnamed).foldl
    (fun acc name => acc ++ "(?:" ++ active_sep ++ name ++ active_op ++
      "(?P<" ++ name ++ ">" ++ named_src ++ "))?") ""
  .ok ("\x7b\x7b" ++ fname ++ req ++ opt ++ "\x7d\x7d")

end SignatureShorthand

/-- C8 counterexample: deriving a pattern for a handler g whose parameter
list is purely variadic (star-args and double-star-kwargs) does not fail
with any error; it succeeds and yields the delimited literal pattern for
g, exactly as for a handler with no parameters at all.  No
UnsupportedSignatureError exists anywhere in the repository. -/
theorem c8_counterexample :
    SignatureShorthand.derive_pattern "g"
      ⟨[], 0, some "args", some "kwargs"⟩ = .ok "\x7b\x7bg\x7d\x7d" := by
  rfl

/-- C8 amended: deriving a processor pattern from a handler whose
parameter list has variable arity does not fail; the variadic parameters
are ignored, so derivation succeeds and returns exactly the pattern
derived for the same handler with the variadic parameters removed. -/
theorem c8_amended (fname : String) (spec : SignatureShorthand.FullArgSpec) :
    SignatureShorthand.derive_pattern fname spec =
        SignatureShorthand.derive_pattern fname
          ⟨spec.args, spec.nDefaults, none, none⟩ ∧
      ∃ pat, SignatureShorthand.derive_pattern fname spec = .ok pat :=
  ⟨rfl, ⟨_, rfl⟩⟩

namespace OneWayProcessor

/-- Match-object data consumed by OneWayProcessor._unique_groups
(src/src/ovid/basic.py): the values of the unnamed groups in index order,
and the groupdict mapping each named group to its captured substring, or
none when the group did not participate in the match. -/
structure MatchObject where
  unnamed : List (List Char)
  groupdict : List (List Char × Option (List Char))

/-- Second component of OneWayProcessor._unique_groups: the named groups
restricted to those that participated in the match (the dict
comprehension filtering out None values), in groupdict order. -/
def unique_groups_named (m : MatchObject) :
    List (List Char × List Char) :=
  m.groupdict.filterMap (fun kv => kv.2.map (fun v => (kv.1, v)))

/-- Python dict.update semantics for keyword-argument dictionaries: a key
already present keeps its position but takes the updating value; new keys
are appended in updating order. -/
def dictUpdate (d other : List (List Char × List Char)) :
    List (List Char × List Char) :=
  (d.map (fun kv =>
    match other.lookup kv.1 with
    | some v => (kv.1, v)
    | none => kv)) ++
    other.filter (fun kv => !(d.map Prod.fst).contains kv.1)

/-- Keyword arguments the repl closure of OneWayProcessor._process hands
to the handler: the passthrough keyword arguments given to sub or subn,
updated in place with the participating named captures, i.e. the source
line kwargs.update(named). -/
def handler_kwargs (kwargs : List (List Char × List Char))
    (m : MatchObject) : List (List Char × List Char) :=
  dictUpdate kwargs (unique_groups_named m)

/-- OneWayProcessor._process, seen from the handler: for every match, the
handler is invoked on the unnamed captures positionally and on
handler_kwargs as keyword arguments. -/
def process {R : Type} (function :
    List (List Char) → List (List Char × List Char) → R)
    (kwargs : List (List Char × List Char)) (m : MatchObject) : R :=
  function m.unnamed (handler_kwargs kwargs m)

theorem lookup_append_left {α β : Type} [BEq α]
    (l₁ l₂ : List (α × β)) (a : α) (v : β)
    (h : l₁.lookup a = some v) : (l₁ ++ l₂).lookup a = some v := by
  induction l₁ with
  | nil => cases h
  | cons kv rest ih =>
    obtain ⟨k, u⟩ := kv
    simp only [List.lookup, List.cons_append] at h ⊢
    cases hak : a == k
    · simp only [hak] at h ⊢
      exact ih h
    · simp only [hak] at h ⊢
      exact h

theorem lookup_unique_groups (gd : List (List Char × Option (List Char)))
    (name v : List Char) (hmem : (name, some v) ∈ gd)
    (hnd : (gd.map Prod.fst).Nodup) :
    (gd.filterMap (fun kv => kv.2.map (fun x => (kv.1, x)))).lookup name =
      some v := by
  induction gd with
  | nil => cases hmem
  | cons kv rest ih =>
    obtain ⟨k, ov⟩ := kv
    simp only [List.map_cons, List.nodup_cons] at hnd
    rcases List.mem_cons.mp hmem with heq | hmem2
    · injection heq with h1 h2
      subst h1
      subst h2
      simp [List.filterMap_cons, List.lookup]
    · have hk : k ≠ name := fun hkeq =>
        hnd.1 (hkeq ▸ List.mem_map_of_mem Prod.fst hmem2)
      cases ov with
      | none =>
        simpa [List.filterMap_cons] using ih hmem2 hnd.2
      | some x =>
        simp only [List.filterMap_cons, Option.map_some']
        simp only [List.lookup]
        cases hak : name == k
        · simp only [hak]
          exact ih hmem2 hnd.2
        · exact absurd (eq_of_beq hak) (fun he => hk he.symm)

theorem lookup_map_override (d other : List (List Char × List Char))
    (name w v : List Char) (hmem : (name, w) ∈ d)
    (hlk : other.lookup name = some v) :
    (d.map (fun kv =>
      match other.lookup kv.1 with
      | some x => (kv.1, x)
      | none => kv)).lookup name = some v := by
  induction d with
  | nil => cases hmem
  | cons kv rest ih =>
    obtain ⟨k, u⟩ := kv
    rcases eq_or_ne k name with rfl | hk
    · simp [List.map_cons, hlk, List.lookup]
    · have hmem2 : (name, w) ∈ rest := by
        rcases List.mem_cons.mp hmem with heq | h2
        · exact absurd (congrArg Prod.fst heq).symm hk
        · exact h2
      simp only [List.map_cons]
      cases hlo : other.lookup k with
      | some x =>
        simp only [List.lookup]
        cases hak : name == k
        · simp only [hak]
          exact ih hmem2
        · exact absurd (eq_of_beq hak) (fun he => hk he.symm)
      | none =>
        simp only [List.lookup]
        cases hak : name == k
        · simp only [hak]
          exact ih hmem2
        · exact absurd (eq_of_beq hak) (fun he => hk he.symm)

end OneWayProcessor

/-- C9: when a passthrough keyword argument supplied to sub, subn or
collective_sub has the same name as a named capture group that
participated in the match, every handler invocation receives the captured
substring for that name, not the passthrough value: the named captures
are merged over the passthrough keywords by kwargs.update(named). -/
theorem c9_named_capture_overrides_passthrough (m : OneWayProcessor.MatchObject)
    (kwargs : List (List Char × List Char)) (name v w : List Char)
    (hcap : (name, some v) ∈ m.groupdict)
    (hnd : (m.groupdict.map Prod.fst).Nodup)
    (hkw : (name, w) ∈ kwargs) :
    (OneWayProcessor.handler_kwargs kwargs m).lookup name = some v ∧
      ∀ (R : Type) (f : List (List Char) → List (List Char × List Char) → R),
        OneWayProcessor.process f kwargs m =
          f m.unnamed (OneWayProcessor.handler_kwargs kwargs m) := by
  refine ⟨?_, fun R f => rfl⟩
  have hlk : (OneWayProcessor.unique_groups_named m).lookup name = some v :=
    OneWayProcessor.lookup_unique_groups m.groupdict name v hcap hnd
  exact OneWayProcessor.lookup_append_left _ _ _ _
    (OneWayProcessor.lookup_map_override kwargs _ name w v hkw hlk)

/-- Witness for c9_named_capture_overrides_passthrough: a match with the
named group x capturing cap, against a passthrough keyword x mapped to
val, delivers cap to the handler. -/
theorem c9_witness :
    (OneWayProcessor.handler_kwargs [(chars "x", chars "val")]
        ⟨[], [(chars "x", some (chars "cap"))]⟩).lookup (chars "x") =
        some (chars "cap") ∧
      ∀ (R : Type) (f : List (List Char) → List (List Char × List Char) → R),
        OneWayProcessor.process f [(chars "x", chars "val")]
            ⟨[], [(chars "x", some (chars "cap"))]⟩ =
          f ([] : List (List Char))
            (OneWayProcessor.handler_kwargs [(chars "x", chars "val")]
              ⟨[], [(chars "x", some (chars "cap"))]⟩) :=
  c9_named_capture_overrides_passthrough
    ⟨[], [(chars "x", some (chars "cap"))]⟩ [(chars "x", chars "val")]
    (chars "x") (chars "cap") (chars "val") (by decide) (by decide)
    (by decide)

namespace DelimitedShorthand

/-- Matching positions of the regex produced by
DelimitedShorthand._unescape for a single-character delimiter d and a
non-empty escape attribute esc: a negative look-behind for the re-escaped
escape attribute, then the delimiter.  Re-escaping makes the look-behind
match exactly the literal text of the attribute, so position i of subject
s matches iff s carries d at i and the text of esc is not the segment
immediately preceding position i. -/
def unescape_matches_at (esc : List Char) (d : Char) (s : List Char)
    (i : Nat) : Prop :=
  (s.drop i).head? = some d ∧ ¬ (esc <:+ s.take i)

instance (esc : List Char) (d : Char) (s : List Char) (i : Nat) :
    Decidable (unescape_matches_at esc d s i) :=
  inferInstanceAs (Decidable (_ ∧ _))

/-- Spec-side count for C6: the number of consecutive copies of the
escape token immediately preceding position i of s.  The first argument
is a bound on the recursion; i copies can never overrun position i, so
the entry point below passes i itself and the bound never binds. -/
def escRunAux (esc : List Char) (s : List Char) : Nat → Nat → Nat
  | 0, _ => 0
  | fuel + 1, i =>
    if esc ≠ [] ∧ esc <:+ s.take i then
      escRunAux esc s fuel (i - esc.length) + 1
    else 0

/-- Number of consecutive escape-token copies ending at position i. -/
def escRun (esc : List Char) (s : List Char) (i : Nat) : Nat :=
  escRunAux esc s i i

/-- Statement form of C6 at one occurrence: the derived active-delimiter
matcher matches at position i iff the delimiter occurs there and the
number of escape tokens immediately preceding it is not odd. -/
def c6_claim_at (esc : List Char) (d : Char) (s : List Char) (i : Nat) :
    Prop :=
  unescape_matches_at esc d s i ↔
    ((s.drop i).head? = some d ∧ ¬ Odd (escRun esc s i))

end DelimitedShorthand

/-- C6 counterexample: with the single-character escape token bang and
delimiter an open brace, the subject bang-bang-brace has its brace
preceded by an even number (two) of escape tokens, so the claim says the
active matcher matches there; but the derived matcher is only a negative
look-behind for one escape token, which sees the bang immediately before
the brace and rejects the position. -/
theorem c6_counterexample :
    ¬ DelimitedShorthand.c6_claim_at ['!'] '\x7b' (chars "!!\x7b") 2 ∧
      DelimitedShorthand.escRun ['!'] (chars "!!\x7b") 2 = 2 ∧
      ¬ DelimitedShorthand.unescape_matches_at ['!'] '\x7b'
        (chars "!!\x7b") 2 := by
  refine ⟨?_, by decide, by decide⟩
  rw [DelimitedShorthand.c6_claim_at]
  decide

/-- C6 amended: for every single-character delimiter and non-empty escape
token, the derived active-delimiter matcher matches an occurrence of the
delimiter iff that occurrence is not immediately preceded by any escape
token at all, i.e. iff the run of escape tokens ending just before it is
empty; a delimiter preceded by an even positive number of escape tokens
(an escaped escape) is still rejected. -/
theorem c6_amended (esc : List Char) (d : Char) (s : List Char) (i : Nat)
    (h : esc ≠ []) :
    DelimitedShorthand.unescape_matches_at esc d s i ↔
      ((s.drop i).head? = some d ∧
        DelimitedShorthand.escRun esc s i = 0) := by
  unfold DelimitedShorthand.unescape_matches_at
  refine and_congr_right (fun _ => ?_)
  cases i with
  | zero =>
    simp only [DelimitedShorthand.escRun, DelimitedShorthand.escRunAux]
    constructor
    · intro _
      simp
    · intro _ hc
      have hlen : esc = [] := by
        have := hc.length_le
        simpa using this
      exact h hlen
  | succ n =>
    simp only [DelimitedShorthand.escRun, DelimitedShorthand.escRunAux]
    by_cases hc : esc <+: ([] : List Char)
    · exact absurd (List.prefix_nil.mp hc) h
    · by_cases hs : esc <:+ s.take (n + 1)
      · rw [if_pos ⟨h, hs⟩]
        simp [hs]
      · rw [if_neg (fun hand => hs hand.2)]
        simp [hs]

/-- Witness for c6_amended: with escape token bang, delimiter open brace
and subject bang-brace, the number of preceding escape tokens is one, so
the matcher does not match position 1. -/
theorem c6_witness :
    (['!'] : List Char) ≠ [] ∧
      (DelimitedShorthand.unescape_matches_at ['!'] '\x7b'
          (chars "!\x7b") 1 ↔
        (((chars "!\x7b").drop 1).head? = some '\x7b' ∧
          DelimitedShorthand.escRun ['!'] (chars "!\x7b") 1 = 0)) :=
  ⟨by decide, c6_amended ['!'] '\x7b' (chars "!\x7b") 1 (by decide)⟩

namespace TwoWaySignatureShorthand

/-- Ordering used by Python sorted on the pairs of named.items(): tuples
compare lexicographically and strings compare by code point; with
distinct keyword names the value comparison never decides, but it is part
of the comparison and makes the order antisymmetric. -/
def pairLe (p q : List Char × List Char) : Prop :=
  p.1 < q.1 ∨ (p.1 = q.1 ∧ p.2 ≤ q.2)

instance : DecidableRel pairLe := fun p q =>
  inferInstanceAs (Decidable (p.1 < q.1 ∨ (p.1 = q.1 ∧ p.2 ≤ q.2)))

instance : IsTotal (List Char × List Char) pairLe :=
  ⟨fun p q => by
    rcases lt_trichotomy p.1 q.1 with h | h | h
    · exact .inl (.inl h)
    · rcases le_total p.2 q.2 with h2 | h2
      · exact .inl (.inr ⟨h, h2⟩)
      · exact .inr (.inr ⟨h.symm, h2⟩)
    · exact .inr (.inl h)⟩

instance : IsTrans (List Char × List Char) pairLe :=
  ⟨fun p q r hpq hqr => by
    rcases hpq with h1 | ⟨e1, l1⟩ <;> rcases hqr with h2 | ⟨e2, l2⟩
    · exact .inl (h1.trans h2)
    · exact .inl (lt_of_lt_of_eq h1 e2)
    · exact .inl (lt_of_eq_of_lt e1 h2)
    · exact .inr ⟨e1.trans e2, l1.trans l2⟩⟩

instance : IsAntisymm (List Char × List Char) pairLe :=
  ⟨fun p q hpq hqp => by
    rcases hpq with h1 | ⟨e1, l1⟩
    · rcases hqp with h2 | ⟨e2, l2⟩
      · exact absurd (h1.trans h2) (lt_irrefl _)
      · exact absurd (lt_of_lt_of_eq h1 e2) (lt_irrefl _)
    · rcases hqp with h2 | ⟨e2, l2⟩
      · exact absurd (lt_of_eq_of_lt e1 h2) (lt_irrefl _)
      · exact Prod.ext e1 (le_antisymm l1 l2)⟩

/-- Full match of the named-group sub-pattern against a proposed value,
as checked by TwoWayProcessor._must_match: every character admissible (no
separator, no newline). -/
def namedOK (v : List Char) : Bool := v.all SignatureShorthand.isValueChar

/-- Full match of the unnamed-group sub-pattern against a proposed value:
the identifier look-ahead must reject and every character is admissible. -/
def unnamedOK (v : List Char) : Bool :=
  !SignatureShorthand.startsIdentAssign v &&
    v.all SignatureShorthand.isValueChar

/-- Failures of the production path: ProductionError raised by
_must_match, the KeyError of an unknown keyword name looked up in
_production_groups_named, and the missing-argument error str.format
raises when fewer positional values are supplied than placeholders. -/
inductive ProduceErr where
  | production (group : List Char)
  | key_missing (name : List Char)
  | missing_positional
deriving DecidableEq

/-- Validation loop of TwoWaySignatureShorthand.produce over the sorted
named arguments: look the name up among the declared optional names
(KeyError when absent), then check the value fully matches the named
sub-pattern (ProductionError otherwise). -/
def validate_named (opts : List (List Char)) :
    List (List Char × List Char) → Except ProduceErr Unit
  | [] => .ok ()
  | nv :: rest =>
    if nv.1 ∈ opts then
      if namedOK nv.2 then validate_named opts rest
      else .error (.production nv.1)
    else .error (.key_missing nv.1)

/-- Validation loop of TwoWayProcessor._fill_unnamed over the supplied
unnamed values (after zipping with the unnamed production groups, which
silently drops values beyond the number of groups). -/
def validate_values : List (List Char) → Except ProduceErr Unit
  | [] => .ok ()
  | v :: rest =>
    if unnamedOK v then validate_values rest else .error (.production v)

/-- Join of rendered elements with the separator, the class method
_separate. -/
def joinSep : List (List Char) → List Char
  | [] => []
  | [x] => x
  | x :: y :: rest => x ++ '|' :: joinSep (y :: rest)

/-- TwoWaySignatureShorthand.produce (src/ovid/producing.py) composed
with the underlying TwoWayProcessor.produce: sort the provided named
arguments as Python sorted does on name-value pairs; validate each in
sorted order; render them as name, operator, value, joined by the
separator, with one leading separator when any are present; validate the
unnamed values against the unnamed sub-pattern; then instantiate the
production template: lead-in, function name, one separator-prefixed
unnamed value per placeholder, the named part, lead-out.  Extra unnamed
values beyond n are dropped by the zip in _fill_unnamed; fewer than n
fail at format time. -/
def produce (fname : List Char) (n : Nat) (opts : List (List Char))
    (unnamed : List (List Char)) (named : List (List Char × List Char)) :
    Except ProduceErr (List Char) :=
  let namedS := List.insertionSort pairLe named
  match validate_named opts namedS with
  | .error e => .error e
  | .ok _ =>
    let rendered := joinSep (namedS.map (fun nv => nv.1 ++ '=' :: nv.2))
    let namedPart : List Char :=
      if rendered = [] then [] else '|' :: rendered
    match validate_values (unnamed.take n) with
    | .error e => .error e
    | .ok _ =>
      if unnamed.length < n then .error .missing_positional
      else .ok (lead_in ++ fname ++
        ((unnamed.take n).foldr (fun v acc => '|' :: (v ++ acc)) []) ++
        namedPart ++ lead_out)

end TwoWaySignatureShorthand

/-- C10: TwoWaySignatureShorthand.produce renders the provided named
arguments sorted in ascending order of name, so its result — output or
error alike — is invariant under permutation of the named-argument list:
two orderings of the same named-argument set yield identical markup. -/
theorem c10_produce_perm_invariant (fname : List Char) (n : Nat)
    (opts : List (List Char)) (unnamed : List (List Char))
    (named₁ named₂ : List (List Char × List Char))
    (hperm : named₁.Perm named₂) :
    TwoWaySignatureShorthand.produce fname n opts unnamed named₁ =
      TwoWaySignatureShorthand.produce fname n opts unnamed named₂ := by
  have hsort : List.insertionSort TwoWaySignatureShorthand.pairLe named₁ =
      List.insertionSort TwoWaySignatureShorthand.pairLe named₂ :=
    List.eq_of_perm_of_sorted
      ((List.perm_insertionSort TwoWaySignatureShorthand.pairLe
        named₁).trans
        (hperm.trans
          (List.perm_insertionSort TwoWaySignatureShorthand.pairLe
            named₂).symm))
      (List.sorted_insertionSort TwoWaySignatureShorthand.pairLe named₁)
      (List.sorted_insertionSort TwoWaySignatureShorthand.pairLe named₂)
  simp only [TwoWaySignatureShorthand.produce, hsort]

/-- Witness for c10_produce_perm_invariant: the two orderings of the
named arguments v0 and v1 for the producing test handler produce the same
markup. -/
theorem c10_witness :
    TwoWaySignatureShorthand.produce (chars "a") 0
        [chars "v0", chars "v1"] []
        [(chars "v0", chars "1"), (chars "v1", chars "2")] =
      TwoWaySignatureShorthand.produce (chars "a") 0
        [chars "v0", chars "v1"] []
        [(chars "v1", chars "2"), (chars "v0", chars "1")] :=
  c10_produce_perm_invariant (chars "a") 0 [chars "v0", chars "v1"] []
    [(chars "v0", chars "1"), (chars "v1", chars "2")]
    [(chars "v1", chars "2"), (chars "v0", chars "1")]
    (List.Perm.swap _ _ _)

deriving instance DecidableEq for Except

/-- Handler used by the C2 counterexample; it ignores its arguments and
returns a fixed string, so any successful invocation is visible in the
output. -/
def cex_handler : SignatureShorthand.Caps → List Char := fun _ => chars "X"

/-- C2 counterexample: for the two-way signature processor over a handler
f whose optional parameters are declared in the order b then a — the
reverse of alphabetical order — and the values one for b and two for a,
both of which fully match the named sub-pattern, the round trip fails:
produce sorts the named arguments alphabetically and emits markup listing
a before b, but the derived consumption regex lists the optional groups
in declaration order, so the processor's own sub finds no match and
returns the markup unchanged instead of the handler's output. -/
theorem c2_counterexample :
    TwoWaySignatureShorthand.produce (chars "f") 0 [chars "b", chars "a"]
        [] [(chars "b", chars "1"), (chars "a", chars "2")] =
      .ok (chars "\x7b\x7bf|a=2|b=1\x7d\x7d") ∧
      TwoWaySignatureShorthand.namedOK (chars "1") = true ∧
      TwoWaySignatureShorthand.namedOK (chars "2") = true ∧
      SignatureShorthand.sigSub cex_handler
          (SignatureShorthand.sigPieces (chars "f") 0 [chars "b", chars "a"])
          (chars "\x7b\x7bf|a=2|b=1\x7d\x7d") =
        chars "\x7b\x7bf|a=2|b=1\x7d\x7d" ∧
      chars "\x7b\x7bf|a=2|b=1\x7d\x7d" ≠
        cex_handler ⟨[], [(chars "b", chars "1"), (chars "a", chars "2")]⟩ := by
  refine ⟨by decide, by decide, by decide, by decide, by decide⟩

namespace SignatureShorthand

/-- Identifier shape of Python function and parameter names: an
identifier-start character followed by word characters.  The literal
pieces of the embedded regexes are faithful only for such names, which
contain no regex metacharacters. -/
def isIdent : List Char → Bool
  | [] => false
  | c :: rest => isIdentStart c && rest.all isWordChar

/-- Text of the separator-prefixed unnamed values in produced markup. -/
def unnamedText (us : List (List Char)) : List Char :=
  us.foldr (fun v acc => '|' :: (v ++ acc)) []

/-- Text of the separator-prefixed name, operator, value renderings of
the provided named arguments in produced markup, in the given order. -/
def namedText (sps : List (List Char × List Char)) : List Char :=
  sps.foldr (fun nv acc => '|' :: (nv.1 ++ '=' :: (nv.2 ++ acc))) []

/-- Optional-group pieces for the declared optional names followed by the
closing lead-out literal: the common suffix of every signature pattern. -/
def optSection (opts : List (List Char)) : List SigPiece :=
  opts.map SigPiece.optGroup ++ [.lit lead_out]

theorem sigPieces_decomp (fname : List Char) (n : Nat)
    (opts : List (List Char)) :
    sigPieces fname n opts =
      .lit (lead_in ++ fname) :: (unnamedSection n ++ optSection opts) := rfl

theorem takeWhile_append_of_all {p : Char → Bool} (v t : List Char)
    (hv : v.all p = true) :
    (v ++ t).takeWhile p = v ++ t.takeWhile p := by
  induction v with
  | nil => simp
  | cons a v ih =>
    simp only [List.all_cons, Bool.and_eq_true] at hv
    simp [List.takeWhile_cons, hv.1, ih hv.2]

theorem maxRun_append_sep (v t : List Char)
    (hv : v.all isValueChar = true) (ht : t.head? = some '|') :
    maxRun (v ++ t) = v.length := by
  cases t with
  | nil => cases ht
  | cons c t2 =>
    have hc : c = '|' := by simpa using ht
    subst hc
    rw [maxRun, takeWhile_append_of_all v _ hv]
    simp [List.takeWhile_cons, isValueChar]

theorem maxRun_append_leadout (v : List Char)
    (hv : v.all isValueChar = true) :
    maxRun (v ++ lead_out) = v.length + 2 := by
  rw [maxRun, takeWhile_append_of_all v _ hv]
  simp [lead_out, List.takeWhile_cons, isValueChar]

theorem greedyLens_decomp (s : List Char) :
    greedyLens s = maxRun s :: (List.range (maxRun s)).reverse := by
  rw [greedyLens, List.range_succ, List.reverse_append]
  simp

theorem findSome_cons_none {β : Type} (f : Nat → Option β) (a : Nat)
    (as : List Nat) (h : f a = none) :
    List.findSome? f (a :: as) = List.findSome? f as := by
  rw [List.findSome?_cons, h]

theorem findSome_cons_some {β : Type} (f : Nat → Option β) (a : Nat)
    (as : List Nat) (b : β) (h : f a = some b) :
    List.findSome? f (a :: as) = some b := by
  rw [List.findSome?_cons, h]

theorem startsIdentAssign_append (v t : List Char)
    (hv : startsIdentAssign v = false)
    (ht : ∃ c t2, t = c :: t2 ∧ isWordChar c = false ∧ c ≠ '=') :
    startsIdentAssign (v ++ t) = false := by
  obtain ⟨c, t2, rfl, hcw, hce⟩ := ht
  cases v with
  | nil =>
    simp only [List.nil_append, startsIdentAssign]
    cases his : isIdentStart c with
    | false => simp
    | true =>
      exfalso
      have h2 := his
      simp only [isIdentStart, Bool.and_eq_true] at h2
      rw [h2.1] at hcw
      cases hcw
  | cons a v2 =>
    simp only [startsIdentAssign, List.cons_append] at hv ⊢
    cases his : isIdentStart a with
    | false => simp
    | true =>
      rw [his] at hv
      simp only [Bool.true_and] at hv ⊢
      rw [List.dropWhile_append]
      cases hdw : v2.dropWhile isWordChar with
      | nil =>
        simp only [List.isEmpty_nil, if_true]
        rw [List.dropWhile_cons_of_neg (by simp [hcw])]
        simpa using hce
      | cons d ds =>
        rw [hdw] at hv
        simp only [List.isEmpty_cons, if_false, Bool.false_eq_true]
        simpa using by simpa using hv

end SignatureShorthand

namespace SignatureShorthand

theorem runPieces_lit (l : List Char) (ps : List SigPiece) (s : List Char) :
    runPieces (.lit l :: ps) (l ++ s) = runPieces ps s := by
  simp [runPieces, List.prefix_append, List.drop_left]

theorem optSection_nil_none (opts : List (List Char)) :
    runPieces (optSection opts) [] = none := by
  induction opts with
  | nil => decide
  | cons o os ih =>
    simp only [optSection, List.map_cons, List.cons_append, runPieces]
    rw [if_neg (by simp [List.prefix_nil])]
    simpa [optSection] using ih

theorem optSection_brace_none (opts : List (List Char)) :
    runPieces (optSection opts) ['\x7d'] = none := by
  induction opts with
  | nil => decide
  | cons o os ih =>
    simp only [optSection, List.map_cons, List.cons_append, runPieces]
    rw [if_neg ?hpre]
    case hpre =>
      rintro ⟨r, hr⟩
      simp only [List.cons_append, List.cons.injEq] at hr
      exact absurd hr.1 (by decide)
    simpa [optSection] using ih

theorem optSection_leadout (opts : List (List Char)) :
    runPieces (optSection opts) lead_out = some (⟨[], []⟩, []) := by
  induction opts with
  | nil => decide
  | cons o os ih =>
    simp only [optSection, List.map_cons, List.cons_append, runPieces]
    rw [if_neg ?hpre]
    case hpre =>
      rintro ⟨r, hr⟩
      simp only [lead_out, List.cons_append, List.cons.injEq] at hr
      exact absurd hr.1 (by decide)
    simpa [optSection] using ih

theorem findSome_greedy_mid (v t : List Char) (P : List SigPiece)
    (hv : v.all isValueChar = true) (ht : t.head? = some '|')
    (c0 : Caps) (r : List Char) (h : runPieces P t = some (c0, r))
    (F : Nat → Caps × List Char → Caps × List Char) :
    ((greedyLens (v ++ t)).findSome? (fun k =>
        (runPieces P ((v ++ t).drop k)).map (F k))) =
      some (F v.length (c0, r)) := by
  rw [greedyLens_decomp, maxRun_append_sep v t hv ht]
  refine findSome_cons_some _ _ _ _ ?_
  rw [List.drop_left, h]
  rfl

theorem findSome_greedy_last (v : List Char) (P : List SigPiece)
    (hv : v.all isValueChar = true)
    (h0 : runPieces P [] = none) (h1 : runPieces P ['\x7d'] = none)
    (c0 : Caps) (h2 : runPieces P lead_out = some (c0, []))
    (F : Nat → Caps × List Char → Caps × List Char) :
    ((greedyLens (v ++ lead_out)).findSome? (fun k =>
        (runPieces P ((v ++ lead_out).drop k)).map (F k))) =
      some (F v.length (c0, [])) := by
  rw [greedyLens_decomp, maxRun_append_leadout v hv]
  have hr2 : (List.range (v.length + 2)).reverse =
      (v.length + 1) :: v.length :: (List.range v.length).reverse := by
    rw [List.range_succ, List.range_succ]
    simp
  have d2 : (v ++ lead_out).drop (v.length + 2) = [] := by
    have hd := List.drop_drop 2 v.length (v ++ lead_out)
    rw [List.drop_left] at hd
    rw [← hd]
    rfl
  have d1 : (v ++ lead_out).drop (v.length + 1) = ['\x7d'] := by
    have hd := List.drop_drop 1 v.length (v ++ lead_out)
    rw [List.drop_left] at hd
    rw [← hd]
    rfl
  rw [hr2]
  rw [findSome_cons_none _ _ _ (by rw [d2, h0]; rfl)]
  rw [findSome_cons_none _ _ _ (by rw [d1, h1]; rfl)]
  refine findSome_cons_some _ _ _ _ ?_
  rw [List.drop_left, h2]
  rfl

end SignatureShorthand

namespace SignatureShorthand

theorem ident_all_word (o : List Char) (h : isIdent o = true) :
    o.all isWordChar = true := by
  cases o with
  | nil => cases h
  | cons c rest =>
    simp only [isIdent, Bool.and_eq_true] at h
    have hc : isWordChar c = true := by
      have h1 := h.1
      simp only [isIdentStart, Bool.and_eq_true] at h1
      exact h1.1
    simp [List.all_cons, hc, h.2]

theorem eq_of_wordlists_prefix (d : List Char) :
    ∀ (p xs ys : List Char), d.all isWordChar = true →
      p.all isWordChar = true →
      (d ++ '=' :: xs) <+: (p ++ '=' :: ys) → d = p := by
  induction d with
  | nil =>
    intro p xs ys _ hp hpre
    cases p with
    | nil => rfl
    | cons c p2 =>
      exfalso
      obtain ⟨r, hr⟩ := hpre
      simp only [List.nil_append, List.cons_append, List.cons.injEq] at hr
      have hc : isWordChar c = true := by
        simp only [List.all_cons, Bool.and_eq_true] at hp
        exact hp.1
      rw [← hr.1] at hc
      exact absurd hc (by decide)
  | cons a d2 ih =>
    intro p xs ys hd hp hpre
    cases p with
    | nil =>
      exfalso
      obtain ⟨r, hr⟩ := hpre
      simp only [List.nil_append, List.cons_append, List.cons.injEq] at hr
      have ha : isWordChar a = true := by
        simp only [List.all_cons, Bool.and_eq_true] at hd
        exact hd.1
      rw [hr.1] at ha
      exact absurd ha (by decide)
    | cons c p2 =>
      obtain ⟨r, hr⟩ := hpre
      simp only [List.cons_append, List.cons.injEq] at hr
      have hd2 : d2.all isWordChar = true := by
        simp only [List.all_cons, Bool.and_eq_true] at hd
        exact hd.2
      have hp2 : p2.all isWordChar = true := by
        simp only [List.all_cons, Bool.and_eq_true] at hp
        exact hp.2
      have htail : (d2 ++ '=' :: xs) <+: (p2 ++ '=' :: ys) := by
        exact ⟨r, by simpa using hr.2⟩
      rw [hr.1, ih p2 xs ys hd2 hp2 htail]

theorem opt_pre_not_prefix (d p v rest : List Char)
    (hd : isIdent d = true) (hp : isIdent p = true) (hne : d ≠ p) :
    ¬ ('|' :: (d ++ ['='])) <+: ('|' :: (p ++ '=' :: (v ++ rest))) := by
  rintro ⟨r, hr⟩
  simp only [List.cons_append, List.cons.injEq, true_and] at hr
  apply hne
  refine eq_of_wordlists_prefix d p [] (v ++ rest)
    (ident_all_word d hd) (ident_all_word p hp) ⟨r, ?_⟩
  simpa using hr

theorem optSection_cons (d : List Char) (ds : List (List Char)) :
    optSection (d :: ds) = .optGroup d :: optSection ds := by
  simp [optSection]

theorem namedText_cons (p v : List Char)
    (sps : List (List Char × List Char)) :
    namedText ((p, v) :: sps) = '|' :: (p ++ '=' :: (v ++ namedText sps)) :=
  rfl

theorem runPieces_optSection (opts : List (List Char)) :
    ∀ (sps : List (List Char × List Char)),
      (∀ o ∈ opts, isIdent o = true) →
      (∀ q ∈ sps, TwoWaySignatureShorthand.namedOK q.2 = true) →
      (sps.map Prod.fst).Sublist opts →
      runPieces (optSection opts) (namedText sps ++ lead_out) =
        some (⟨[], sps⟩, []) := by
  induction opts with
  | nil =>
    intro sps _ _ hsub
    have hnil : sps = [] := by
      have := List.sublist_nil.mp hsub
      simpa using this
    subst hnil
    simpa [namedText] using optSection_leadout []
  | cons d ds ih =>
    intro sps hid hval hsub
    cases sps with
    | nil =>
      simp only [namedText, List.foldr_nil, List.nil_append]
      exact optSection_leadout (d :: ds)
    | cons pv sps2 =>
      obtain ⟨p, v⟩ := pv
      have hvall : v.all isValueChar = true := by
        have hv0 := hval (p, v) (by simp)
        simpa [TwoWaySignatureShorthand.namedOK] using hv0
      have hval2 : ∀ q ∈ sps2, TwoWaySignatureShorthand.namedOK q.2 = true :=
        fun q hq => hval q (by simp [hq])
      have hid2 : ∀ o ∈ ds, isIdent o = true :=
        fun o ho => hid o (by simp [ho])
      by_cases hpd : p = d
      · subst hpd
        have hsub2 : (sps2.map Prod.fst).Sublist ds := by
          cases hsub with
          | cons _ h => exact (List.sublist_cons_self _ _).trans h
          | cons₂ _ h => exact h
        rw [optSection_cons, namedText_cons]
        simp only [runPieces]
        have hshape : ('|' :: (p ++ '=' :: (v ++ namedText sps2))) ++
            lead_out =
            ('|' :: (p ++ ['='])) ++ (v ++ (namedText sps2 ++ lead_out)) := by
          simp [List.append_assoc]
        rw [hshape, if_pos (List.prefix_append _ _)]
        have hdrop : (('|' :: (p ++ ['='])) ++
            (v ++ (namedText sps2 ++ lead_out))).drop (p.length + 2) =
            v ++ (namedText sps2 ++ lead_out) := by
          have hd := List.drop_left ('|' :: (p ++ ['=']))
            (v ++ (namedText sps2 ++ lead_out))
          simpa using hd
        rw [hdrop]
        cases sps2 with
        | nil =>
          simp only [namedText, List.foldr_nil, List.nil_append]
          rw [findSome_greedy_last v (optSection ds) hvall
            (optSection_nil_none ds) (optSection_brace_none ds)
            ⟨[], []⟩ (optSection_leadout ds)]
          simp [List.take_left]
        | cons q sps3 =>
          have hcont : runPieces (optSection ds)
              (namedText (q :: sps3) ++ lead_out) =
              some (⟨[], q :: sps3⟩, []) :=
            ih (q :: sps3) hid2 hval2 hsub2
          rw [findSome_greedy_mid v (namedText (q :: sps3) ++ lead_out)
            (optSection ds) hvall
            (by obtain ⟨a, b⟩ := q; rw [namedText_cons]; rfl)
            ⟨[], q :: sps3⟩ [] hcont]
          simp [List.take_left]
      · have hsub3 : (((p, v) :: sps2).map Prod.fst).Sublist ds := by
          cases hsub with
          | cons _ h => exact h
          | cons₂ _ h => exact absurd rfl hpd
        have hpid : isIdent p = true := by
          have hmem : p ∈ d :: ds := hsub.subset (by simp)
          exact hid p hmem
        have hnp : ¬ ('|' :: (d ++ ['='])) <+:
            (namedText ((p, v) :: sps2) ++ lead_out) := by
          rw [namedText_cons]
          have hshape : ('|' :: (p ++ '=' :: (v ++ namedText sps2))) ++
              lead_out =
              '|' :: (p ++ '=' :: (v ++ (namedText sps2 ++ lead_out))) := by
            simp [List.append_assoc]
          rw [hshape]
          exact opt_pre_not_prefix d p v (namedText sps2 ++ lead_out)
            (hid d (by simp)) hpid (fun hde => hpd hde.symm)
        rw [optSection_cons]
        simp only [runPieces]
        rw [if_neg hnp]
        simp only [Option.none_orElse]
        exact ih ((p, v) :: sps2) hid2 hval hsub3

end SignatureShorthand

namespace SignatureShorthand

theorem runPieces_lit_single (c : Char) (ps : List SigPiece)
    (s : List Char) :
    runPieces (.lit [c] :: ps) (c :: s) = runPieces ps s :=
  runPieces_lit [c] ps s

theorem unnamedText_cons (v : List Char) (us : List (List Char)) :
    unnamedText (v :: us) = '|' :: (v ++ unnamedText us) := rfl

theorem unnamedSection_cons (n : Nat) :
    unnamedSection (n + 1) = .lit ['|'] :: .unnamedGroup :: unnamedSection n :=
  rfl

theorem tail_head_bound (us2 : List (List Char))
    (sps : List (List Char × List Char)) :
    ∃ c t2, unnamedText us2 ++ (namedText sps ++ lead_out) = c :: t2 ∧
      isWordChar c = false ∧ c ≠ '=' := by
  cases us2 with
  | cons v2 us3 =>
    exact ⟨'|', (v2 ++ unnamedText us3) ++ (namedText sps ++ lead_out),
      rfl, by decide, by decide⟩
  | nil =>
    cases sps with
    | cons q sps2 =>
      obtain ⟨a, b⟩ := q
      exact ⟨'|', (a ++ '=' :: (b ++ namedText sps2)) ++ lead_out,
        rfl, by decide, by decide⟩
    | nil => exact ⟨'\x7d', ['\x7d'], rfl, by decide, by decide⟩

theorem tail_head_sep (us2 : List (List Char))
    (sps : List (List Char × List Char))
    (h : us2 ≠ [] ∨ sps ≠ []) :
    (unnamedText us2 ++ (namedText sps ++ lead_out)).head? = some '|' := by
  cases us2 with
  | cons v2 us3 => rfl
  | nil =>
    cases sps with
    | cons q sps2 => obtain ⟨a, b⟩ := q; rfl
    | nil => rcases h with h | h <;> exact absurd rfl h

theorem runPieces_unnamed_section (us : List (List Char)) :
    ∀ (opts : List (List Char)) (sps : List (List Char × List Char)),
      (∀ v ∈ us, TwoWaySignatureShorthand.unnamedOK v = true) →
      (∀ o ∈ opts, isIdent o = true) →
      (∀ q ∈ sps, TwoWaySignatureShorthand.namedOK q.2 = true) →
      (sps.map Prod.fst).Sublist opts →
      runPieces (unnamedSection us.length ++ optSection opts)
        (unnamedText us ++ (namedText sps ++ lead_out)) =
        some (⟨us, sps⟩, []) := by
  induction us with
  | nil =>
    intro opts sps _ hid hval hsub
    simpa [unnamedText] using runPieces_optSection opts sps hid hval hsub
  | cons v us2 ih =>
    intro opts sps hus hid hval hsub
    have hvOK : TwoWaySignatureShorthand.unnamedOK v = true := hus v (by simp)
    have hvall : v.all isValueChar = true := by
      simp only [TwoWaySignatureShorthand.unnamedOK, Bool.and_eq_true] at hvOK
      exact hvOK.2
    have hvsia : startsIdentAssign v = false := by
      simp only [TwoWaySignatureShorthand.unnamedOK, Bool.and_eq_true,
        Bool.not_eq_true'] at hvOK
      exact hvOK.1
    rw [List.length_cons, unnamedSection_cons, unnamedText_cons,
      List.cons_append, List.cons_append]
    have hshape : '|' :: (v ++ unnamedText us2) ++
        (namedText sps ++ lead_out) =
        '|' :: (v ++ (unnamedText us2 ++ (namedText sps ++ lead_out))) := by
      simp [List.append_assoc]
    rw [hshape, runPieces_lit_single]
    simp only [runPieces]
    have hfalse : startsIdentAssign
        (v ++ (unnamedText us2 ++ (namedText sps ++ lead_out))) = false :=
      startsIdentAssign_append v _ hvsia (tail_head_bound us2 sps)
    rw [hfalse]
    simp only [Bool.false_eq_true, if_false]
    by_cases hend : us2 = [] ∧ sps = []
    · obtain ⟨rfl, rfl⟩ := hend
      simp only [unnamedText, namedText, List.foldr_nil, List.nil_append,
        List.length_nil]
      have h0 : runPieces (unnamedSection 0 ++ optSection opts) [] = none := by
        simpa [unnamedSection] using optSection_nil_none opts
      have h1 : runPieces (unnamedSection 0 ++ optSection opts) ['\x7d'] =
          none := by
        simpa [unnamedSection] using optSection_brace_none opts
      have h2 : runPieces (unnamedSection 0 ++ optSection opts) lead_out =
          some (⟨[], []⟩, []) := by
        simpa [unnamedSection] using optSection_leadout opts
      rw [findSome_greedy_last v _ hvall h0 h1 ⟨[], []⟩ h2]
      simp [List.take_left]
    · have hne : us2 ≠ [] ∨ sps ≠ [] := by
        by_cases h2 : us2 = []
        · right; exact fun hsp => hend ⟨h2, hsp⟩
        · left; exact h2
      have hcont := ih opts sps (fun w hw => hus w (by simp [hw])) hid hval hsub
      rw [findSome_greedy_mid v
        (unnamedText us2 ++ (namedText sps ++ lead_out)) _ hvall
        (tail_head_sep us2 sps hne) ⟨us2, sps⟩ [] hcont]
      simp [List.take_left]

theorem runPieces_sig_canonical (fname : List Char) (us : List (List Char))
    (opts : List (List Char)) (sps : List (List Char × List Char))
    (hus : ∀ v ∈ us, TwoWaySignatureShorthand.unnamedOK v = true)
    (hid : ∀ o ∈ opts, isIdent o = true)
    (hval : ∀ q ∈ sps, TwoWaySignatureShorthand.namedOK q.2 = true)
    (hsub : (sps.map Prod.fst).Sublist opts) :
    runPieces (sigPieces fname us.length opts)
      ((lead_in ++ fname) ++
        (unnamedText us ++ (namedText sps ++ lead_out))) =
      some (⟨us, sps⟩, []) := by
  rw [sigPieces_decomp, runPieces_lit]
  exact runPieces_unnamed_section us opts sps hus hid hval hsub

theorem sigPieces_nil_none (fname : List Char) (n : Nat)
    (opts : List (List Char)) :
    runPieces (sigPieces fname n opts) [] = none := by
  rw [sigPieces_decomp]
  simp only [runPieces]
  rw [if_neg]
  intro hpre
  have := List.prefix_nil.mp hpre
  simp [lead_in] at this

theorem sigSubnAux_skip_all (h : Caps → List Char) (pieces : List SigPiece)
    (hnil : runPieces pieces [] = none) :
    ∀ l : List Char, sigSubnAux h pieces l.length l = ([], 0) := by
  intro l
  induction l with
  | nil => simp [sigSubnAux, hnil]
  | cons c rest ih => simpa [sigSubnAux] using ih

theorem sigSub_full_match (h : Caps → List Char) (pieces : List SigPiece)
    (s : List Char) (caps : Caps)
    (hm : runPieces pieces s = some (caps, []))
    (hnil : runPieces pieces [] = none) (hs : s ≠ []) :
    sigSub h pieces s = h caps := by
  cases s with
  | nil => exact absurd rfl hs
  | cons c rest =>
    unfold sigSub sigSubn
    simp only [sigSubnAux, hm]
    rw [if_pos (by simp)]
    simp only [List.length_nil, Nat.sub_zero]
    rw [sigSubnAux_skip_all h pieces hnil rest]
    simp

end SignatureShorthand

namespace TwoWaySignatureShorthand

theorem validate_named_ok (opts : List (List Char)) :
    ∀ l : List (List Char × List Char),
      (∀ q ∈ l, q.1 ∈ opts ∧ namedOK q.2 = true) →
      validate_named opts l = .ok () := by
  intro l
  induction l with
  | nil => intro _; rfl
  | cons q rest ih =>
    intro h
    obtain ⟨hm, hok⟩ := h q (by simp)
    simp only [validate_named]
    rw [if_pos hm, if_pos hok]
    exact ih (fun x hx => h x (by simp [hx]))

theorem validate_values_ok :
    ∀ l : List (List Char),
      (∀ v ∈ l, unnamedOK v = true) → validate_values l = .ok () := by
  intro l
  induction l with
  | nil => intro _; rfl
  | cons v rest ih =>
    intro h
    simp only [validate_values]
    rw [if_pos (h v (by simp))]
    exact ih (fun x hx => h x (by simp [hx]))

theorem joinSep_map_ne_nil (q : List Char × List Char)
    (rest : List (List Char × List Char)) :
    joinSep ((q :: rest).map (fun nv => nv.1 ++ '=' :: nv.2)) ≠ [] := by
  cases rest with
  | nil => simp [joinSep]
  | cons r rest2 => simp [joinSep]

theorem namedPart_eq (l : List (List Char × List Char)) :
    (if joinSep (l.map (fun nv => nv.1 ++ '=' :: nv.2)) = [] then
      ([] : List Char)
     else '|' :: joinSep (l.map (fun nv => nv.1 ++ '=' :: nv.2))) =
      SignatureShorthand.namedText l := by
  induction l with
  | nil => simp [joinSep, SignatureShorthand.namedText]
  | cons q rest ih =>
    rw [if_neg (joinSep_map_ne_nil q rest)]
    cases rest with
    | nil =>
      obtain ⟨a, b⟩ := q
      simp [joinSep, SignatureShorthand.namedText]
    | cons r rest2 =>
      rw [if_neg (joinSep_map_ne_nil r rest2)] at ih
      obtain ⟨a, b⟩ := q
      rw [SignatureShorthand.namedText_cons, ← ih]
      simp only [List.map_cons, joinSep]
      simp [List.append_assoc]

theorem produce_canonical (fname : List Char) (opts : List (List Char))
    (us : List (List Char)) (ps : List (List Char × List Char))
    (hus : ∀ v ∈ us, unnamedOK v = true)
    (hnv : ∀ q ∈ List.insertionSort pairLe ps,
      q.1 ∈ opts ∧ namedOK q.2 = true) :
    produce fname us.length opts us ps =
      .ok ((lead_in ++ fname) ++ (SignatureShorthand.unnamedText us ++
        (SignatureShorthand.namedText (List.insertionSort pairLe ps) ++
          lead_out))) := by
  simp only [produce]
  rw [validate_named_ok opts _ hnv]
  simp only [List.take_length]
  rw [validate_values_ok us hus]
  rw [if_neg (lt_irrefl _)]
  rw [namedPart_eq]
  simp [SignatureShorthand.unnamedText, List.append_assoc]

theorem pairLe_fst_le (p q : List Char × List Char) (h : pairLe p q) :
    p.1 ≤ q.1 := by
  rcases h with h | ⟨h, _⟩
  · exact le_of_lt h
  · exact le_of_eq h

theorem sorted_map_fst (sps : List (List Char × List Char))
    (hs : List.Sorted pairLe sps) (hnd : (sps.map Prod.fst).Nodup) :
    List.Sorted (· < ·) (sps.map Prod.fst) := by
  have hle : List.Pairwise (fun a b : List Char => a ≤ b)
      (sps.map Prod.fst) := by
    rw [List.pairwise_map]
    exact hs.imp (fun h => pairLe_fst_le _ _ h)
  have hne : List.Pairwise (fun a b : List Char => a ≠ b)
      (sps.map Prod.fst) := hnd
  exact (hle.and hne).imp (fun h => lt_of_le_of_ne h.1 h.2)

end TwoWaySignatureShorthand

theorem sorted_subset_sublist {α : Type} [LinearOrder α]
    (l₂ : List α) :
    ∀ l₁ : List α, List.Sorted (· < ·) l₁ → List.Sorted (· < ·) l₂ →
      (∀ x ∈ l₁, x ∈ l₂) → l₁.Sublist l₂ := by
  induction l₂ with
  | nil =>
    intro l₁ _ _ hsub
    cases l₁ with
    | nil => exact List.Sublist.refl []
    | cons x l => exact absurd (hsub x (by simp)) (by simp)
  | cons y l₂' ih =>
    intro l₁ h₁ h₂ hsub
    cases l₁ with
    | nil => exact List.nil_sublist _
    | cons x l₁' =>
      have hx : x ∈ y :: l₂' := hsub x (by simp)
      have hsorted₁ := List.sorted_cons.mp h₁
      have hsorted₂ := List.sorted_cons.mp h₂
      rcases eq_or_ne x y with rfl | hxy
      · refine List.Sublist.cons₂ x (ih l₁' hsorted₁.2 hsorted₂.2 ?_)
        intro z hz
        have hzx : x < z := hsorted₁.1 z hz
        have hzmem : z ∈ x :: l₂' := hsub z (by simp [hz])
        rcases List.mem_cons.mp hzmem with rfl | hmem
        · exact absurd hzx (lt_irrefl z)
        · exact hmem
      · have hxl : x ∈ l₂' := by
          rcases List.mem_cons.mp hx with rfl | h
          · exact absurd rfl hxy
          · exact h
        refine List.Sublist.cons y (ih (x :: l₁') h₁ hsorted₂.2 ?_)
        intro z hz
        rcases List.mem_cons.mp hz with rfl | hz'
        · exact hxl
        · have hzx : x < z := hsorted₁.1 z hz'
          have hyx : y < x := hsorted₂.1 x hxl
          have hzmem : z ∈ y :: l₂' := hsub z (by simp [hz'])
          rcases List.mem_cons.mp hzmem with rfl | hmem
          · exact absurd (hyx.trans hzx) (lt_irrefl z)
          · exact hmem

/-- C2 amended: for every two-way signature-derived Processor whose
optional parameter names are declared in strictly ascending alphabetical
order, and every argument values whose stringified components fully match
the sub-patterns that would capture them, resolving (with the processor's
own sub, the resolution operation of a two-way Processor) the markup
returned by produce calls the handler exactly once with arguments equal
to those values, and the resolved text is that handler invocation's
output.  The handler hypothesis states what Python guarantees for every
handler: keyword-argument binding does not depend on keyword order.  The
identifier hypotheses on the function and parameter names record that
they are Python identifiers, which is what makes the literal treatment of
those names in the embedded regex faithful. -/
theorem c2_amended (fname : List Char) (opts : List (List Char))
    (us : List (List Char)) (ps : List (List Char × List Char))
    (handler : SignatureShorthand.Caps → List Char)
    (hf : SignatureShorthand.isIdent fname = true)
    (hoid : ∀ o ∈ opts, SignatureShorthand.isIdent o = true)
    (hosort : List.Sorted (· < ·) opts)
    (hus : ∀ v ∈ us, TwoWaySignatureShorthand.unnamedOK v = true)
    (hps : ∀ q ∈ ps, TwoWaySignatureShorthand.namedOK q.2 = true)
    (hnames : ∀ q ∈ ps, q.1 ∈ opts)
    (hnd : (ps.map Prod.fst).Nodup)
    (hhandler : ∀ u l₁ l₂, l₁.Perm l₂ →
      handler ⟨u, l₁⟩ = handler ⟨u, l₂⟩) :
    ∃ markup,
      TwoWaySignatureShorthand.produce fname us.length opts us ps =
          .ok markup ∧
        SignatureShorthand.sigSub handler
            (SignatureShorthand.sigPieces fname us.length opts) markup =
          handler ⟨us, ps⟩ := by
  have hperm : (List.insertionSort TwoWaySignatureShorthand.pairLe ps).Perm
      ps := List.perm_insertionSort _ ps
  have hval : ∀ q ∈ List.insertionSort TwoWaySignatureShorthand.pairLe ps,
      TwoWaySignatureShorthand.namedOK q.2 = true :=
    fun q hq => hps q (hperm.mem_iff.mp hq)
  have hmem : ∀ q ∈ List.insertionSort TwoWaySignatureShorthand.pairLe ps,
      q.1 ∈ opts := fun q hq => hnames q (hperm.mem_iff.mp hq)
  have hndS : ((List.insertionSort TwoWaySignatureShorthand.pairLe ps).map
      Prod.fst).Nodup := ((hperm.map Prod.fst).nodup_iff).mpr hnd
  have hsortS := List.sorted_insertionSort TwoWaySignatureShorthand.pairLe ps
  have hnameSorted := TwoWaySignatureShorthand.sorted_map_fst _ hsortS hndS
  have hsub : ((List.insertionSort TwoWaySignatureShorthand.pairLe ps).map
      Prod.fst).Sublist opts :=
    sorted_subset_sublist opts _ hnameSorted hosort
      (fun x hx => by
        obtain ⟨q, hq, rfl⟩ := List.mem_map.mp hx
        exact hmem q hq)
  refine ⟨(lead_in ++ fname) ++ (SignatureShorthand.unnamedText us ++
    (SignatureShorthand.namedText
      (List.insertionSort TwoWaySignatureShorthand.pairLe ps) ++ lead_out)),
    ?_, ?_⟩
  · exact TwoWaySignatureShorthand.produce_canonical fname opts us ps hus
      (fun q hq => ⟨hmem q hq, hval q hq⟩)
  · have hmatch := SignatureShorthand.runPieces_sig_canonical fname us opts
      (List.insertionSort TwoWaySignatureShorthand.pairLe ps)
      hus hoid hval hsub
    rw [SignatureShorthand.sigSub_full_match handler _ _
      ⟨us, List.insertionSort TwoWaySignatureShorthand.pairLe ps⟩ hmatch
      (SignatureShorthand.sigPieces_nil_none fname us.length opts)
      (by simp [lead_in])]
    exact hhandler us _ ps hperm

/-- Witness for c2_amended: the processor for f with one required
parameter and optional parameters kw0 and kw1 (declared alphabetically),
the value 1 for the required parameter and 1 for kw0, and a handler that
returns its first positional capture. -/
theorem c2_amended_witness :
    ∃ markup,
      TwoWaySignatureShorthand.produce (chars "f") 1
          [chars "kw0", chars "kw1"] [chars "1"]
          [(chars "kw0", chars "1")] = .ok markup ∧
        SignatureShorthand.sigSub (fun caps => caps.unnamed.headD [])
            (SignatureShorthand.sigPieces (chars "f") 1
              [chars "kw0", chars "kw1"]) markup =
          (fun caps : SignatureShorthand.Caps =>
            caps.unnamed.headD []) ⟨[chars "1"], [(chars "kw0", chars "1")]⟩ := by
  have h := c2_amended (chars "f") [chars "kw0", chars "kw1"] [chars "1"]
    [(chars "kw0", chars "1")] (fun caps => caps.unnamed.headD [])
    (by decide) (by decide) (by decide) (by decide) (by decide) (by decide)
    (by decide) (fun u l₁ l₂ _ => rfl)
  simpa using h

end Ovid
